import Mathlib

/-!
Verification of the schema-inference and normalization pipeline of the
Renderupload repository (`data_cleaner.py`, `main.py`).

The pipeline is embedded shallowly: every function is translated from the
Python source.  Python / library behaviour that the source delegates to
(`str.strip`, `str.lower`, `re` word characters, `float`, `int`,
`dateutil.parser.parse`, polars casts and `unique`) is modelled by
executable Lean functions.  The character-level model is faithful for code
points up to `0xFF` (ASCII and Latin-1), plus the two code points `U+0130`
and `U+0307` involved in Python's special lower-casing of `İ`; code points
outside that range are treated as non-word, not lower-cased and not digits,
which is noted wherever a theorem could depend on it.

Numeric threshold comparisons (`int_ok / total >= 0.9`) are performed by
Python on IEEE-754 doubles; they are modelled here as exact comparisons
over `ℚ`.  For every ratio appearing in the concrete inputs used below the
two agree.
-/

/-- Whitespace as recognised by Python `str.strip()` (and `str(v).strip()`),
restricted to the modelled character range: ASCII whitespace `\t \n \v \f \r`,
space, the C1 controls `\x1c`-`\x1f`, NEL `\x85` and NBSP `\xa0`. -/
def pyCharIsSpace (c : Char) : Bool :=
  c = ' ' || (9 ≤ c.toNat && c.toNat ≤ 13) || (28 ≤ c.toNat && c.toNat ≤ 31) ||
  c.toNat = 0x85 || c.toNat = 0xa0

/-- Word characters of Python's `re` module (`\w` = `str.isalnum` or `_`),
restricted to the modelled range: ASCII `[A-Za-z0-9_]`, the Latin-1
alphanumerics (ª µ º ¹ ² ³ ¼ ½ ¾ and the letters À-ÿ except × ÷), and the
letter `İ` (U+0130) used by the idempotence analysis. -/
def pyCharIsWord (c : Char) : Bool :=
  c.isAlphanum || c = '_' ||
  c.toNat = 0xAA || c.toNat = 0xB2 || c.toNat = 0xB3 || c.toNat = 0xB5 ||
  c.toNat = 0xB9 || c.toNat = 0xBA || (0xBC ≤ c.toNat && c.toNat ≤ 0xBE) ||
  (0xC0 ≤ c.toNat && c.toNat ≤ 0xFF && c.toNat ≠ 0xD7 && c.toNat ≠ 0xF7) ||
  c.toNat = 0x130

/-- Python `str.lower`, per character.  A character may lower-case to more
than one character: `İ` (U+0130) is the unique code point whose default
Unicode lowercase mapping is multi-character, `"İ".lower() == "i̇"`.
ASCII `A-Z` and the Latin-1 uppercase letters `À-Þ` (except `×`) shift by
32; everything else in the modelled range is unchanged. -/
def pyLowerChar (c : Char) : List Char :=
  if c.toNat = 0x130 then ['i', Char.ofNat 0x307]
  else if 65 ≤ c.toNat && c.toNat ≤ 90 then [Char.ofNat (c.toNat + 32)]
  else if 0xC0 ≤ c.toNat && c.toNat ≤ 0xDE && c.toNat ≠ 0xD7 then
    [Char.ofNat (c.toNat + 32)]
  else [c]

def pyLower (l : List Char) : List Char := l.flatMap pyLowerChar

/-- Remove trailing characters satisfying `p` (the right half of Python
`str.strip` / `str.strip("_")`). -/
def dropTrailing (p : Char → Bool) : List Char → List Char
  | [] => []
  | c :: cs =>
    match dropTrailing p cs with
    | [] => if p c then [] else [c]
    | r => c :: r

/-- Python `str.strip()` on a character list. -/
def pyStripList (l : List Char) : List Char :=
  dropTrailing pyCharIsSpace (l.dropWhile pyCharIsSpace)

/-- Python `str.strip()`. -/
def pyStrip (s : String) : String := ⟨pyStripList s.data⟩

/-- Python `str.strip("_")`. -/
def stripUnderscores (l : List Char) : List Char :=
  dropTrailing (fun c => c = '_') (l.dropWhile (fun c => c = '_'))

/-- `re.sub` of a regex replacing every maximal run of characters failing
`p` by a single `'_'`.  With `p` = word characters this is
`re.sub(r"[^\w]+", "_", s)`; with `p c = (c ≠ '_')` it is
`re.sub(r"__+", "_", s)` (a run of one underscore is unchanged either
way).  The boolean argument records whether the previous character was
part of a run being replaced. -/
def subRuns (p : Char → Bool) : Bool → List Char → List Char
  | _, [] => []
  | inRun, c :: cs =>
    if p c then c :: subRuns p false cs
    else if inRun then subRuns p true cs
    else '_' :: subRuns p true cs

/-- `sanitize_column_name` from `data_cleaner.py`:
strip, replace non-word runs by `_`, collapse `__+`, strip `_`, lower,
and fall back to `"col"` when empty. -/
def sanitize_column_name (s : String) : String :=
  let l0 := pyStripList s.data
  let l1 := subRuns pyCharIsWord false l0
  let l2 := subRuns (fun c => c ≠ '_') false l1
  let l3 := pyLower (stripUnderscores l2)
  if l3.isEmpty then "col" else ⟨l3⟩

/-! ## Value parsers used by the type classifier -/

/-- Python `str.isdigit`, per character, in the modelled range: ASCII
digits and the Latin-1 superscripts ¹ ² ³ (which are `isdigit` but are
rejected by `int()`). -/
def pyCharIsdigit (c : Char) : Bool :=
  c.isDigit || c.toNat = 0xB2 || c.toNat = 0xB3 || c.toNat = 0xB9

/-- Drop one optional leading `+` or `-`. -/
def dropOneSign : List Char → List Char
  | [] => []
  | c :: cs => if c = '+' || c = '-' then cs else c :: cs

/-- Python `int(s)` for an already-stripped string, in the modelled range:
one optional sign followed by a nonempty run of ASCII decimal digits.
(Underscores between digits and non-ASCII decimal digits, which `int()`
also accepts, are outside the modelled range; both are rejected by the
`isdigit` guard that precedes every use of this function in the source.) -/
def pyIntParses (l : List Char) : Bool :=
  let m := dropOneSign l
  !m.isEmpty && m.all (fun c => c.isDigit)

/-- The integer check of `infer_column_types_from_sample`, line 45:
`"." not in s and s.lstrip("+-").isdigit()` followed by a successful
`int(s)`.  Note `lstrip("+-")` removes every leading sign character while
`int` accepts at most one, so `"+-5"` passes the guard but fails the
parse and is not counted. -/
def pyIntOk (s : String) : Bool :=
  let l := s.data
  !l.contains '.' &&
  (let m := l.dropWhile (fun c => c = '+' || c = '-')
   !m.isEmpty && m.all pyCharIsdigit) &&
  pyIntParses l

/-- Each underscore must sit directly between two digits (the rule CPython
applies to numeric strings with underscores before parsing them);
the first argument is the preceding character, if any. -/
def underscoresOkAux : Option Char → List Char → Bool
  | _, [] => true
  | prev, c :: cs =>
    if c = '_' then
      (match prev with | some p => p.isDigit | none => false) &&
      (match cs with | d :: _ => d.isDigit | [] => false) &&
      underscoresOkAux (some c) cs
    else underscoresOkAux (some c) cs

def underscoresOk (l : List Char) : Bool := underscoresOkAux none l

def allDigits (l : List Char) : Bool := !l.isEmpty && l.all (fun c => c.isDigit)

/-- The mantissa grammar of Python `float`: `digits`, `digits.`,
`digits.digits` or `.digits`. -/
def mantissaOk (l : List Char) : Bool :=
  match l.splitOn '.' with
  | [a] => allDigits a
  | [a, b] => (allDigits a && (b.isEmpty || allDigits b)) || (a.isEmpty && allDigits b)
  | _ => false

/-- Split at the first `e`/`E` into mantissa and exponent parts. -/
def splitExp (l : List Char) : List Char × Option (List Char) :=
  match l.findIdx? (fun c => c = 'e' || c = 'E') with
  | none => (l, none)
  | some i => (l.take i, some (l.drop (i + 1)))

def expOk (l : List Char) : Bool := allDigits (dropOneSign l)

/-- The finite-number grammar of Python `float` (sign already removed):
mantissa with an optional `e`/`E` exponent. -/
def floatNumberOk (l : List Char) : Bool :=
  let p := splitExp l
  mantissaOk p.1 && (match p.2 with | none => true | some ex => expOk ex)

def toLowerAscii (l : List Char) : List Char :=
  l.map (fun c => if 65 ≤ c.toNat && c.toNat ≤ 90 then Char.ofNat (c.toNat + 32) else c)

/-- The non-finite literals accepted by Python `float` (sign already
removed, case-insensitive): `inf`, `infinity`, `nan`. -/
def nonFiniteLiteral (l : List Char) : Bool :=
  let w := toLowerAscii l
  w = "inf".data || w = "infinity".data || w = "nan".data

/-- Python `float(s)`: strip whitespace, validate underscores (each must be
between two digits) and remove them, then one optional sign followed by
either a non-finite literal or a finite number. -/
def pyFloatOk (s : String) : Bool :=
  let l := pyStripList s.data
  underscoresOk l &&
  (let m := dropOneSign (l.filter (fun c => c ≠ '_'))
   nonFiniteLiteral m || floatNumberOk m)

/-- Python `s.replace(",", "")`: remove every comma. -/
def stripCommas (s : String) : String := ⟨s.data.filter (fun c => c ≠ ',')⟩

def natOfDigits (l : List Char) : ℕ := l.foldl (fun a c => 10 * a + (c.toNat - 48)) 0

def validYMD (y m d : ℕ) : Bool :=
  1 ≤ y && y ≤ 9999 && 1 ≤ m && m ≤ 12 && 1 ≤ d && d ≤ 31

/-- Modelled from the library: `dateutil.parser.parse(s, fuzzy=False)`,
whose code is not part of this repository.  Partial model accepting a bare
4-digit year (`parse("2021")` succeeds, defaulting month and day) and an
ISO `YYYY-MM-DD` date; every other string is rejected.  The inputs this
model is evaluated on below (`"2021"`, `"x"`, `"abc"`, `"inf"`) behave
identically under the real parser. -/
def dateutilParses (s : String) : Bool :=
  let l := s.data
  (l.length = 4 && allDigits l && 1 ≤ natOfDigits l) ||
  (match l.splitOn '-' with
   | [y, m, d] =>
     allDigits y && y.length = 4 && allDigits m && allDigits d &&
     validYMD (natOfDigits y) (natOfDigits m) (natOfDigits d)
   | _ => false)

/-! ## The type classifier (`infer_column_types_from_sample`, per column) -/

def SAMPLE_ROWS : ℕ := 1000

def NUMERIC_THRESHOLD : ℚ := 9 / 10

def DATE_THRESHOLD : ℚ := 3 / 4

/-- The non-null filter of line 30: keep values that are not `None` and
whose stripped string form is nonempty. -/
def nonNullValues (values : List (Option String)) : List String :=
  (values.filterMap id).filter (fun v => !(pyStrip v).isEmpty)

/-- The counting loop of lines 41-64, as a fold over the examined values:
a value passing the integer check counts for the integer and float tallies
and `continue`s (so the date parse is never attempted on it); otherwise the
float parse (on the comma-stripped string) and the date parse are attempted
independently. -/
def tallyStep (acc : ℕ × ℕ × ℕ) (v : String) : ℕ × ℕ × ℕ :=
  let s := pyStrip v
  if pyIntOk s then (acc.1 + 1, acc.2.1 + 1, acc.2.2)
  else
    (acc.1,
     (if pyFloatOk (stripCommas s) then acc.2.1 + 1 else acc.2.1),
     (if dateutilParses s then acc.2.2 + 1 else acc.2.2))

def tallies (vals : List String) : ℕ × ℕ × ℕ :=
  vals.foldl tallyStep (0, 0, 0)

/-- The per-column body of `infer_column_types_from_sample`: filter out
null/empty values (classifying `"string"` when none remain), tally parse
successes over at most `SAMPLE_ROWS` values, divide by `total` — the
length of the *whole* non-null list, computed at line 39 before the
`[:SAMPLE_ROWS]` slice — and apply the ordered threshold decision of
lines 66-74.  The Python comparisons are on IEEE-754 doubles; they are
modelled as exact comparisons over `ℚ`. -/
def infer_column_type (values : List (Option String)) : String :=
  let nonNull := nonNullValues values
  if nonNull.isEmpty then "string"
  else
    let total := nonNull.length
    let t := tallies (nonNull.take SAMPLE_ROWS)
    if 0 < total ∧ (t.1 : ℚ) / (total : ℚ) ≥ NUMERIC_THRESHOLD then "int"
    else if 0 < total ∧ (t.2.1 : ℚ) / (total : ℚ) ≥ NUMERIC_THRESHOLD then "float"
    else if 0 < total ∧ (t.2.2 : ℚ) / (total : ℚ) ≥ DATE_THRESHOLD then "date"
    else "string"

/-- The per-value predicate behind the integer tally. -/
def intTally (v : String) : Bool := pyIntOk (pyStrip v)

/-- The per-value predicate behind the float tally: an integer success also
counts as a float success; otherwise the comma-stripped string must parse
as a float. -/
def floatTally (v : String) : Bool :=
  pyIntOk (pyStrip v) || pyFloatOk (stripCommas (pyStrip v))

/-- The per-value predicate behind the date tally: only values failing the
integer check reach the date parse. -/
def dateTally (v : String) : Bool :=
  !pyIntOk (pyStrip v) && dateutilParses (pyStrip v)

/-- `infer_column_type` with the two rational threshold comparisons turned
into the equivalent cross-multiplied natural-number comparisons; this form
kernel-evaluates (`ℚ` division does not), and `infer_column_type_eq_nat`
proves the two agree. -/
def inferTypeNat (values : List (Option String)) : String :=
  let nonNull := nonNullValues values
  if nonNull.isEmpty then "string"
  else
    let total := nonNull.length
    let t := tallies (nonNull.take SAMPLE_ROWS)
    if 9 * total ≤ t.1 * 10 then "int"
    else if 9 * total ≤ t.2.1 * 10 then "float"
    else if 3 * total ≤ t.2.2 * 4 then "date"
    else "string"

/-! ## The caster and the pipeline (`clean_csv`) -/

/-- Parse an optionally signed run of ASCII decimal digits. -/
def parseSignedDigits (l : List Char) : Option ℤ :=
  match l with
  | '-' :: r => if allDigits r then some (-(natOfDigits r : ℤ)) else none
  | '+' :: r => if allDigits r then some ((natOfDigits r : ℤ)) else none
  | r => if allDigits r then some ((natOfDigits r : ℤ)) else none

/-- Modelled from the library: the polars `cast(pl.Int64, strict=False)`
string-to-integer cast, whose code is not part of this repository.  It
yields a value only for a fully numeric, optionally signed decimal string
within the `Int64` range, and null otherwise. -/
def polarsInt64Parse (s : String) : Option ℤ :=
  match parseSignedDigits s.data with
  | some n => if -(2 ^ 63) ≤ n ∧ n < 2 ^ 63 then some n else none
  | none => none

/-- A double value as distinguished by polars: a finite value (modelled
exactly as a rational, ignoring IEEE-754 rounding, which no theorem below
depends on), infinities or NaN. -/
inductive FloatVal where
  | finite (q : ℚ)
  | inf
  | negInf
  | nan
deriving DecidableEq

def mantissaVal (m : List Char) : Option ℚ :=
  match m.splitOn '.' with
  | [a] => if allDigits a then some ((natOfDigits a : ℚ)) else none
  | [a, b] =>
    if allDigits a && (b.isEmpty || allDigits b) then
      some ((natOfDigits a : ℚ) + (natOfDigits b : ℚ) / (10 ^ b.length))
    else if a.isEmpty && allDigits b then
      some ((natOfDigits b : ℚ) / (10 ^ b.length))
    else none
  | _ => false |> fun _ => none

def floatNumberVal (l : List Char) : Option ℚ :=
  let p := splitExp l
  match mantissaVal p.1 with
  | none => none
  | some q =>
    match p.2 with
    | none => some q
    | some ex =>
      match parseSignedDigits ex with
      | some z => some (q * (10 : ℚ) ^ z)
      | none => none

/-- Modelled from the library: the polars `cast(pl.Float64, strict=False)`
string-to-double cast, whose code is not part of this repository:
an optionally signed finite number with optional exponent, or the
non-finite literals inf/infinity/nan (case-insensitive). -/
def polarsFloat64Parse (s : String) : Option FloatVal :=
  let l := s.data
  let neg : Bool := match l with | '-' :: _ => true | _ => false
  let rest := dropOneSign l
  let low := toLowerAscii rest
  if low = "inf".data || low = "infinity".data then
    some (if neg then FloatVal.negInf else FloatVal.inf)
  else if low = "nan".data then some FloatVal.nan
  else
    match floatNumberVal rest with
    | some q => some (FloatVal.finite (if neg then -q else q))
    | none => none

/-- Modelled from the library: `str.strptime(pl.Datetime, fmt=None,
strict=False)`, whose format inference is not part of this repository;
modelled as recognising an ISO `YYYY-MM-DD` date (the claims below never
depend on which strings this accepts, only on failure yielding null). -/
def strptimeParse (s : String) : Option (ℕ × ℕ × ℕ) :=
  match s.data.splitOn '-' with
  | [y, m, d] =>
    if allDigits y && y.length = 4 && allDigits m && allDigits d &&
        validYMD (natOfDigits y) (natOfDigits m) (natOfDigits d) then
      some (natOfDigits y, natOfDigits m, natOfDigits d)
    else none
  | _ => none

/-- Modelled from the library: polars `.str.strip()`, trimming surrounding
whitespace (same whitespace model as `pyStrip`). -/
def polarsStrStrip (s : String) : String := pyStrip s

/-- A post-cast cell value. -/
inductive Value where
  | vNull
  | vInt (n : ℤ)
  | vFloat (f : FloatVal)
  | vDate (d : ℕ × ℕ × ℕ)
  | vStr (s : String)
deriving DecidableEq

/-- The per-column cast expressions of `clean_csv`, lines 104-136, applied
to one cell: `int`/`float` strip commas then cast non-strictly (null on
failure), `date` parses non-strictly (null on failure), anything else is
whitespace-trimmed and kept as a string.  A null input cell stays null
under every expression. -/
def castCell (t : String) (cell : Option String) : Value :=
  match cell with
  | none => Value.vNull
  | some s =>
    if t = "int" then
      match polarsInt64Parse (stripCommas s) with
      | some n => Value.vInt n
      | none => Value.vNull
    else if t = "float" then
      match polarsFloat64Parse (stripCommas s) with
      | some f => Value.vFloat f
      | none => Value.vNull
    else if t = "date" then
      match strptimeParse s with
      | some d => Value.vDate d
      | none => Value.vNull
    else Value.vStr (polarsStrStrip s)

/-- One row under `with_columns(exprs)`: each cell cast under its column's
inferred type (columns and cells aligned positionally). -/
def castRow (types : List String) (row : List (Option String)) : List Value :=
  (types.zip row).map fun p => castCell p.1 p.2

/-- Modelled from the library: `lf.unique()` keeps exactly one copy of each
distinct row over all columns (nulls comparing equal); its row *order* with
default arguments is left unspecified by polars, so this model (`dedup`,
which keeps one representative per duplicate class) is used only for
order-insensitive properties. -/
def uniqueRows (rows : List (List Value)) : List (List Value) := rows.dedup

/-- Cast every row, then drop duplicate rows (lines 138-142). -/
def cleanedRows (types : List String) (rows : List (List (Option String))) :
    List (List Value) :=
  uniqueRows (rows.map (castRow types))

/-- The whole `clean_csv` dataflow on an in-memory table: sample the first
`SAMPLE_ROWS` rows, sanitize the header, infer one type per column from the
sample, cast every row and deduplicate.  (Column `j`'s sample values are
the `j`-th cells of the sampled rows.) -/
def cleanTable (header : List String) (rows : List (List (Option String))) :
    List String × List (List Value) :=
  let newHeader := header.map sanitize_column_name
  let sample := rows.take SAMPLE_ROWS
  let types := (List.range header.length).map
    (fun j => infer_column_type (sample.map (fun r => (r.get? j).join)))
  (newHeader, cleanedRows types rows)

/-! ## Spec-side definitions (for refinement comparisons) -/

/-- The per-value predicates below are the parse outcomes the classifier
tallies; `specClassifyDecision` is written from the spec's words (§4.2):
ratios of successes over the non-empty values, compared against the two
thresholds in order, first match winning. -/
def specClassifyDecision (values : List (Option String)) : String :=
  let nn := nonNullValues values
  if (nn.countP intTally : ℚ) / (nn.length : ℚ) ≥ NUMERIC_THRESHOLD then "int"
  else if (nn.countP floatTally : ℚ) / (nn.length : ℚ) ≥ NUMERIC_THRESHOLD then "float"
  else if (nn.countP dateTally : ℚ) / (nn.length : ℚ) ≥ DATE_THRESHOLD then "date"
  else "string"

/-- Written from the spec's words (§4.2): the string "parses as a finite
decimal number" — an optionally signed decimal numeral with optional
fraction and exponent (Python's finite-float grammar), with the same
whitespace/underscore conventions as `float`, but *excluding* the
non-finite values. -/
def specFiniteDecimal (s : String) : Bool :=
  let l := pyStripList s.data
  underscoresOk l && floatNumberOk (dropOneSign (l.filter (fun c => c ≠ '_')))

/-- A string denoting a non-finite value: an optionally signed,
case-insensitive `inf`, `infinity` or `nan` literal. -/
def specNonFinite (s : String) : Bool :=
  nonFiniteLiteral (dropOneSign (pyStripList s.data))

/-! ## Sanitizer invariants (C4, C5) -/

/-- A character of the class `[a-z0-9_]` (the spec's identifier regex). -/
def isIdentChar (c : Char) : Bool :=
  (97 ≤ c.toNat && c.toNat ≤ 122) || (48 ≤ c.toNat && c.toNat ≤ 57) || c = '_'

/-- ASCII-only lower-casing, per character. -/
def asciiLowerChar (c : Char) : Char :=
  if 65 ≤ c.toNat && c.toNat ≤ 90 then Char.ofNat (c.toNat + 32) else c

/-- No two adjacent underscores. -/
def noDoubleUS : List Char → Bool
  | a :: b :: rest => !(a = '_' && b = '_') && noDoubleUS (b :: rest)
  | _ => true

/-- A clean identifier: non-empty, containing only `[a-z0-9_]`, with no
leading, trailing or repeated underscores. -/
def isCleanIdent (s : String) : Bool :=
  !s.data.isEmpty && s.data.all isIdentChar && noDoubleUS s.data &&
  !(s.data.head? == some '_') && !(s.data.getLast? == some '_')

/-- The input exhibiting the C2 denominator bug: 1001 non-empty values, of
which the first 1000 (the examined slice) contain 900 integer strings. -/
def bigSample : List (Option String) :=
  List.replicate 900 (some "1") ++ List.replicate 101 (some "x")

/-! ## Theorems -/

example : sanitize_column_name "First Name" = "first_name" := by decide
example : sanitize_column_name "  Age " = "age" := by decide
example : sanitize_column_name "Join-Date" = "join_date" := by decide
example : sanitize_column_name "" = "col" := by decide
example : sanitize_column_name "__a--b__" = "a_b" := by decide
example : sanitize_column_name "é" = "é" := by decide
example : sanitize_column_name "İ" = String.mk ['i', Char.ofNat 0x307] := by decide
example : sanitize_column_name (sanitize_column_name "İ") = "i" := by decide

example : pyIntOk "7" = true := by decide
example : pyIntOk "+42" = true := by decide
example : pyIntOk "+-5" = false := by decide
example : pyIntOk "2.5" = false := by decide
example : pyIntOk "abc" = false := by decide
example : pyFloatOk "2.5" = true := by decide
example : pyFloatOk "1234.5" = true := by decide
example : pyFloatOk "inf" = true := by decide
example : pyFloatOk "-Infinity" = true := by decide
example : pyFloatOk "nan" = true := by decide
example : pyFloatOk "1_0" = true := by decide
example : pyFloatOk "i_nf" = false := by decide
example : pyFloatOk "abc" = false := by decide
example : pyFloatOk "1e5" = true := by decide
example : pyFloatOk ".5" = true := by decide
example : pyFloatOk "5." = true := by decide
example : pyFloatOk "" = false := by decide
example : dateutilParses "2021" = true := by decide
example : dateutilParses "2021-01-05" = true := by decide
example : dateutilParses "abc" = false := by decide
example : dateutilParses "x" = false := by decide
example : dateutilParses "inf" = false := by decide

lemma numeric_threshold_iff (a b : ℕ) (hb : 0 < b) :
    NUMERIC_THRESHOLD ≤ (a : ℚ) / (b : ℚ) ↔ 9 * b ≤ a * 10 := by
  unfold NUMERIC_THRESHOLD
  rw [div_le_div_iff₀ (by norm_num) (by exact_mod_cast hb)]
  exact_mod_cast Iff.rfl

lemma date_threshold_iff (a b : ℕ) (hb : 0 < b) :
    DATE_THRESHOLD ≤ (a : ℚ) / (b : ℚ) ↔ 3 * b ≤ a * 4 := by
  unfold DATE_THRESHOLD
  rw [div_le_div_iff₀ (by norm_num) (by exact_mod_cast hb)]
  exact_mod_cast Iff.rfl

lemma length_pos_of_not_isEmpty {l : List String} (h : l.isEmpty = false) :
    0 < l.length := by
  cases l with
  | nil => simp at h
  | cons a t => simp

lemma infer_column_type_eq_nat (values : List (Option String)) :
    infer_column_type values = inferTypeNat values := by
  unfold infer_column_type inferTypeNat
  cases h : (nonNullValues values).isEmpty with
  | true => simp [h]
  | false =>
    simp only [h, Bool.false_eq_true, if_false]
    have htot : 0 < (nonNullValues values).length := length_pos_of_not_isEmpty h
    have h1 := numeric_threshold_iff
      (tallies ((nonNullValues values).take SAMPLE_ROWS)).1 _ htot
    have h2 := numeric_threshold_iff
      (tallies ((nonNullValues values).take SAMPLE_ROWS)).2.1 _ htot
    have h3 := date_threshold_iff
      (tallies ((nonNullValues values).take SAMPLE_ROWS)).2.2 _ htot
    simp only [ge_iff_le, and_iff_right htot, h1, h2, h3]

example : infer_column_type [some "1", some "2", some "3"] = "int" := by
  rw [infer_column_type_eq_nat]; decide
example : infer_column_type [some "1", some "2.5", some "3"] = "float" := by
  rw [infer_column_type_eq_nat]; decide
example : infer_column_type [] = "string" := by
  rw [infer_column_type_eq_nat]; decide
example : infer_column_type [none, some "  "] = "string" := by
  rw [infer_column_type_eq_nat]; decide
example :
    infer_column_type [some "2021-01-05", some "2021-02-06", some "2021-03-07", some "x"] =
      "date" := by
  rw [infer_column_type_eq_nat]; decide

example : castCell "int" (some "abc") = Value.vNull := by decide
example : castCell "int" (some "1,234") = Value.vInt 1234 := by decide
example : castCell "int" none = Value.vNull := by decide
example : castCell "float" (some "inf") = Value.vFloat FloatVal.inf := by decide
example : castCell "float" (some "x") = Value.vNull := by decide
example : castCell "string" (some " hi ") = Value.vStr "hi" := by decide
example : castCell "date" (some "2021-01-05") = Value.vDate (2021, 1, 5) := by decide

lemma foldl_tallyStep (vals : List String) (acc : ℕ × ℕ × ℕ) :
    vals.foldl tallyStep acc =
      (acc.1 + vals.countP intTally, acc.2.1 + vals.countP floatTally,
       acc.2.2 + vals.countP dateTally) := by
  induction vals generalizing acc with
  | nil => simp
  | cons v t ih =>
    rw [List.foldl_cons, ih]
    by_cases h : pyIntOk (pyStrip v)
    · have hstep : tallyStep acc v = (acc.1 + 1, acc.2.1 + 1, acc.2.2) := by
        simp [tallyStep, h]
      have h1 : intTally v = true := by simp [intTally, h]
      have h2 : floatTally v = true := by simp [floatTally, h]
      have h3 : dateTally v = false := by simp [dateTally, h]
      rw [hstep]
      simp only [List.countP_cons, h1, h2, h3, if_true, if_false]
      simp [Prod.ext_iff]
      omega
    · have hstep : tallyStep acc v =
          (acc.1,
           (if pyFloatOk (stripCommas (pyStrip v)) then acc.2.1 + 1 else acc.2.1),
           (if dateutilParses (pyStrip v) then acc.2.2 + 1 else acc.2.2)) := by
        simp [tallyStep, h]
      have h1 : intTally v = false := by simp [intTally, h]
      have h2 : floatTally v = pyFloatOk (stripCommas (pyStrip v)) := by
        simp [floatTally, h]
      have h3 : dateTally v = dateutilParses (pyStrip v) := by
        simp [dateTally, h]
      rw [hstep]
      simp only [List.countP_cons, h1, h2, h3, if_false]
      by_cases hf : pyFloatOk (stripCommas (pyStrip v)) <;>
        by_cases hd : dateutilParses (pyStrip v) <;>
          simp [hf, hd, Prod.ext_iff] <;> omega

lemma tallies_eq_countP (vals : List String) :
    tallies vals =
      (vals.countP intTally, vals.countP floatTally, vals.countP dateTally) := by
  unfold tallies
  rw [foldl_tallyStep]
  simp

lemma nonNull_ne_isEmpty {values : List (Option String)}
    (h : nonNullValues values ≠ []) : (nonNullValues values).isEmpty = false := by
  cases hh : nonNullValues values with
  | nil => exact absurd hh h
  | cons a t => simp

set_option maxRecDepth 40000

/-- C1: for every column sample whose non-empty values fit in the
`SAMPLE_ROWS` cap (so that "the ratio" is unambiguous — see C2 for the
capped case), classification follows the ordered threshold decision with
first match winning: integer ratio ≥ 0.90 → int, else float ratio ≥ 0.90 →
float, else date ratio ≥ 0.75 → date, else string; and concretely a sample
of 10 non-empty values with exactly 9 integer strings classifies `"int"`,
while one with 89 integer strings out of 100 does not. -/
theorem claim_C1_threshold_decision_order :
    (∀ values : List (Option String),
        nonNullValues values ≠ [] →
        (nonNullValues values).length ≤ SAMPLE_ROWS →
        infer_column_type values = specClassifyDecision values) ∧
    infer_column_type (List.replicate 9 (some "7") ++ [some "abc"]) = "int" ∧
    infer_column_type
        (List.replicate 89 (some "7") ++ List.replicate 11 (some "abc")) ≠ "int" := by
  refine ⟨?_, ?_, ?_⟩
  · intro values hne hcap
    have he : (nonNullValues values).isEmpty = false := nonNull_ne_isEmpty hne
    unfold infer_column_type specClassifyDecision
    simp only [he, Bool.false_eq_true, if_false]
    rw [List.take_of_length_le hcap, tallies_eq_countP]
    have htot : 0 < (nonNullValues values).length := length_pos_of_not_isEmpty he
    simp only [and_iff_right htot]
  · rw [infer_column_type_eq_nat]; decide
  · rw [infer_column_type_eq_nat]; decide

/-- Witness for C1 at a concrete sample. -/
theorem claim_C1_threshold_decision_order_witness :
    nonNullValues [some "1", some "x"] ≠ [] ∧
    (nonNullValues [some "1", some "x"]).length ≤ SAMPLE_ROWS ∧
    infer_column_type [some "1", some "x"] =
      specClassifyDecision [some "1", some "x"] :=
  ⟨by decide, by decide,
   claim_C1_threshold_decision_order.1 [some "1", some "x"] (by decide) (by decide)⟩

/-- C2 (code bug): on a column of 1001 non-empty values whose examined
1000-value slice is 90% integer strings, the ratio the spec describes
(successes over the values actually examined) meets the 0.90 threshold, yet
the code classifies `"string"`, because line 39 computes `total =
len(non_null)` *before* the `[:SAMPLE_ROWS]` slice of line 41: the
denominator is the uncapped non-empty count 1001, not the capped count
1000. -/
theorem claim_C2_denominator_uses_uncapped_total :
    ((nonNullValues bigSample).length = 1001 ∧
      ((nonNullValues bigSample).take SAMPLE_ROWS).length = 1000 ∧
      ((nonNullValues bigSample).take SAMPLE_ROWS).countP intTally = 900) ∧
    (((nonNullValues bigSample).take SAMPLE_ROWS).countP intTally : ℚ) /
        (((nonNullValues bigSample).take SAMPLE_ROWS).length : ℚ) ≥
      NUMERIC_THRESHOLD ∧
    infer_column_type bigSample = "string" := by
  refine ⟨by decide, ?_, by rw [infer_column_type_eq_nat]; decide⟩
  rw [ge_iff_le, numeric_threshold_iff _ _ (by decide)]
  decide

lemma isDigit_toNat {c : Char} (h : c.isDigit = true) :
    48 ≤ c.toNat ∧ c.toNat ≤ 57 := by
  simpa [Char.isDigit, decide_eq_true_eq] using h

lemma toLowerAscii_fixed_of_isDigit {c : Char} (h : c.isDigit = true) :
    (if 65 ≤ c.toNat && c.toNat ≤ 90 then Char.ofNat (c.toNat + 32) else c) = c := by
  have := isDigit_toNat h
  have hif : (65 ≤ c.toNat && c.toNat ≤ 90) = false := by
    simp only [Bool.and_eq_false_iff, decide_eq_false_iff_not]
    left
    omega
  rw [hif]
  simp

lemma mem_inf_not_digit {c : Char} (h : c ∈ "inf".data) : c.isDigit = false := by
  fin_cases h <;> decide

lemma mem_infinity_not_digit {c : Char} (h : c ∈ "infinity".data) :
    c.isDigit = false := by
  fin_cases h <;> decide

lemma mem_nan_not_digit {c : Char} (h : c ∈ "nan".data) : c.isDigit = false := by
  fin_cases h <;> decide

/-- A non-finite literal contains no digit. -/
lemma nonFiniteLiteral_no_digit {m : List Char} (hm : nonFiniteLiteral m = true)
    {d : Char} (hd : d.isDigit = true) : d ∉ m := by
  intro hmem
  have himg : (if 65 ≤ d.toNat && d.toNat ≤ 90 then Char.ofNat (d.toNat + 32) else d) ∈
      toLowerAscii m := List.mem_map_of_mem _ hmem
  rw [toLowerAscii_fixed_of_isDigit hd] at himg
  unfold nonFiniteLiteral at hm
  simp only [Bool.or_eq_true, decide_eq_true_eq] at hm
  rcases hm with (h | h) | h
  · rw [h] at himg
    exact absurd hd (by simp [mem_inf_not_digit himg])
  · rw [h] at himg
    exact absurd hd (by simp [mem_infinity_not_digit himg])
  · rw [h] at himg
    exact absurd hd (by simp [mem_nan_not_digit himg])

/-- A non-finite literal contains no underscore. -/
lemma nonFiniteLiteral_no_underscore {m : List Char}
    (hm : nonFiniteLiteral m = true) : '_' ∉ m := by
  intro hmem
  have himg : (if 65 ≤ '_'.toNat && '_'.toNat ≤ 90 then Char.ofNat ('_'.toNat + 32)
      else '_') ∈ toLowerAscii m := List.mem_map_of_mem _ hmem
  have : ('_' : Char) ∈ toLowerAscii m := by simpa using himg
  unfold nonFiniteLiteral at hm
  simp only [Bool.or_eq_true, decide_eq_true_eq] at hm
  rcases hm with (h | h) | h <;> rw [h] at this <;> simp at this

lemma underscoresOkAux_cons (prev : Option Char) (c : Char) (cs : List Char) :
    underscoresOkAux prev (c :: cs) =
      if c = '_' then
        ((match prev with | some p => p.isDigit | none => false) &&
         (match cs with | d :: _ => d.isDigit | [] => false) &&
         underscoresOkAux (some c) cs)
      else underscoresOkAux (some c) cs := rfl

lemma underscoresOkAux_of_no_underscore {l : List Char} (h : '_' ∉ l) :
    ∀ prev, underscoresOkAux prev l = true := by
  induction l with
  | nil => intro prev; rfl
  | cons c cs ih =>
    intro prev
    have hc : c ≠ '_' := fun he => h (he ▸ List.mem_cons_self c cs)
    have hcs : '_' ∉ cs := fun hm => h (List.mem_cons_of_mem c hm)
    rw [underscoresOkAux_cons, if_neg hc]
    exact ih hcs (some c)

lemma underscore_mem_of_not_underscoresOk {l : List Char}
    (h : underscoresOk l = false) : '_' ∈ l := by
  by_contra hn
  rw [underscoresOk, underscoresOkAux_of_no_underscore hn none] at h
  exact absurd h (by decide)

/-- If the underscore discipline holds and an underscore is present, some
digit is present too (the character following the underscore). -/
lemma digit_mem_of_underscoresOkAux {l : List Char} :
    ∀ prev, underscoresOkAux prev l = true → '_' ∈ l →
      ∃ d ∈ l, d.isDigit = true := by
  induction l with
  | nil => intro prev _ hm; exact absurd hm (List.not_mem_nil _)
  | cons c cs ih =>
    intro prev hok hm
    by_cases hc : c = '_'
    · subst hc
      rw [underscoresOkAux_cons, if_pos rfl] at hok
      simp only [Bool.and_eq_true] at hok
      obtain ⟨⟨_, hnext⟩, _⟩ := hok
      cases cs with
      | nil => simp at hnext
      | cons d rest =>
        exact ⟨d, List.mem_cons_of_mem _ (List.mem_cons_self d rest), hnext⟩
    · rw [underscoresOkAux_cons, if_neg hc] at hok
      have hmcs : '_' ∈ cs := by
        rcases List.mem_cons.mp hm with he | hmem
        · exact absurd he.symm hc
        · exact hmem
      obtain ⟨d, hd1, hd2⟩ := ih (some c) hok hmcs
      exact ⟨d, List.mem_cons_of_mem _ hd1, hd2⟩

lemma mem_dropOneSign_of_mem {a : Char} {l : List Char} (hm : a ∈ l)
    (h1 : a ≠ '+') (h2 : a ≠ '-') : a ∈ dropOneSign l := by
  cases l with
  | nil => exact absurd hm (List.not_mem_nil _)
  | cons c cs =>
    show a ∈ (if c = '+' || c = '-' then cs else c :: cs)
    by_cases hc : c = '+' ∨ c = '-'
    · have hb : (c = '+' || c = '-') = true := by
        rcases hc with h | h <;> simp [h]
      rw [hb]
      simp only [if_true]
      rcases List.mem_cons.mp hm with he | hmem
      · subst he
        rcases hc with h | h
        · exact absurd h h1
        · exact absurd h h2
      · exact hmem
    · push_neg at hc
      have hb : (c = '+' || c = '-') = false := by
        simp [hc.1, hc.2]
      rw [hb]
      simpa using hm

lemma floatOk_decompose_core (l : List Char) :
    (underscoresOk l &&
        (nonFiniteLiteral (dropOneSign (l.filter (fun c => c ≠ '_'))) ||
         floatNumberOk (dropOneSign (l.filter (fun c => c ≠ '_'))))) =
      ((underscoresOk l &&
          floatNumberOk (dropOneSign (l.filter (fun c => c ≠ '_')))) ||
        nonFiniteLiteral (dropOneSign l)) := by
  cases hu : underscoresOk l with
  | false =>
    have hm : '_' ∈ l := underscore_mem_of_not_underscoresOk hu
    have hm2 : '_' ∈ dropOneSign l :=
      mem_dropOneSign_of_mem hm (by decide) (by decide)
    have hnf : nonFiniteLiteral (dropOneSign l) = false := by
      cases hh : nonFiniteLiteral (dropOneSign l) with
      | false => rfl
      | true => exact absurd hm2 (nonFiniteLiteral_no_underscore hh)
    simp [hnf]
  | true =>
    by_cases hm : '_' ∈ l
    · obtain ⟨d, hd1, hd2⟩ := digit_mem_of_underscoresOkAux none hu hm
      have hdn : d ≠ '_' := fun he => by rw [he] at hd2; exact absurd hd2 (by decide)
      have hdp : d ≠ '+' := fun he => by rw [he] at hd2; exact absurd hd2 (by decide)
      have hdm : d ≠ '-' := fun he => by rw [he] at hd2; exact absurd hd2 (by decide)
      have hdf : d ∈ l.filter (fun c => c ≠ '_') :=
        List.mem_filter.mpr ⟨hd1, by simpa using hdn⟩
      have hdf2 : d ∈ dropOneSign (l.filter (fun c => c ≠ '_')) :=
        mem_dropOneSign_of_mem hdf hdp hdm
      have hnf_f :
          nonFiniteLiteral (dropOneSign (l.filter (fun c => c ≠ '_'))) = false := by
        cases hh : nonFiniteLiteral (dropOneSign (l.filter (fun c => c ≠ '_'))) with
        | false => rfl
        | true => exact absurd hdf2 (nonFiniteLiteral_no_digit hh hd2)
      have hm2 : '_' ∈ dropOneSign l :=
        mem_dropOneSign_of_mem hm (by decide) (by decide)
      have hnf_u : nonFiniteLiteral (dropOneSign l) = false := by
        cases hh : nonFiniteLiteral (dropOneSign l) with
        | false => rfl
        | true => exact absurd hm2 (nonFiniteLiteral_no_underscore hh)
      simp only [ne_eq, decide_not] at hnf_f hnf_u ⊢
      simp [hnf_f, hnf_u]
    · have hfeq : l.filter (fun c => c ≠ '_') = l := by
        rw [List.filter_eq_self]
        intro a ha
        have hne : a ≠ '_' := fun he => hm (he ▸ ha)
        simpa using hne
      rw [hfeq]
      simp [Bool.or_comm]

/-- The float check of `infer_column_types_from_sample` (line 54) decomposed
into the spec's finite-decimal grammar plus the non-finite literals. -/
lemma pyFloatOk_decompose (t : String) :
    pyFloatOk t = (specFiniteDecimal t || specNonFinite t) :=
  floatOk_decompose_core (pyStripList t.data)

/-- C3 counterexample: `float("inf")` succeeds in Python, so the value
`"inf"` (not a finite decimal number) counts as a float success — and a
column of ten `"inf"` values is classified `"float"`, contradicting the
claim that only finite decimal numbers count. -/
theorem claim_C3_counterexample_inf :
    pyFloatOk (stripCommas "inf") = true ∧
    specFiniteDecimal (stripCommas "inf") = false ∧
    infer_column_type (List.replicate 10 (some "inf")) = "float" := by
  refine ⟨by decide, by decide, ?_⟩
  rw [infer_column_type_eq_nat]
  decide

/-- C3 amended: the float parse of the classifier succeeds iff the string,
with commas removed, parses as a finite decimal number *or* is an
optionally signed, case-insensitive non-finite literal (`inf`, `infinity`,
`nan`). -/
theorem claim_C3_float_parse_accepts_nonfinite :
    ∀ s : String,
      pyFloatOk (stripCommas s) =
        (specFiniteDecimal (stripCommas s) || specNonFinite (stripCommas s)) :=
  fun s => pyFloatOk_decompose (stripCommas s)

lemma getElem?_zip {α β : Type} (a : List α) (b : List β) (j : ℕ) :
    (a.zip b)[j]? =
      match a[j]?, b[j]? with
      | some x, some y => some (x, y)
      | _, _ => none := by
  induction a generalizing b j with
  | nil => simp
  | cons x xs ih =>
    cases b with
    | nil => simp
    | cons y ys =>
      cases j with
      | zero => simp
      | succ k =>
        simp only [List.zip_cons_cons, List.getElem?_cons_succ]
        exact ih ys k

lemma castRow_local (types : List String) (row row' : List (Option String))
    (j : ℕ) (h : row[j]? = row'[j]?) :
    (castRow types row)[j]? = (castRow types row')[j]? := by
  unfold castRow
  rw [List.getElem?_map, List.getElem?_map, getElem?_zip, getElem?_zip, h]

/-- C6: casting is per-cell and a failure degrades to a null cell only:
cell `j` of a cast row depends only on cell `j` of the raw row (and the
column types); `"abc"` cast under `int` is null; a failing cell does not
disturb its neighbours; and a whole pipeline run over a column inferred
`int` containing `"abc"` completes, producing null for that cell only. -/
theorem claim_C6_cast_failure_per_value_null :
    (∀ (types : List String) (row row' : List (Option String)) (j : ℕ),
        row[j]? = row'[j]? →
        (castRow types row)[j]? = (castRow types row')[j]?) ∧
    castCell "int" (some "abc") = Value.vNull ∧
    castRow ["int", "string"] [some "abc", some " hi "] =
      [Value.vNull, Value.vStr "hi"] ∧
    infer_column_type [some "1", some "2", some "3", some "4", some "5",
        some "6", some "7", some "8", some "9", some "abc"] = "int" ∧
    cleanedRows ["int"] [[some "1"], [some "2"], [some "3"], [some "4"],
        [some "5"], [some "6"], [some "7"], [some "8"], [some "9"],
        [some "abc"]] =
      [[Value.vInt 1], [Value.vInt 2], [Value.vInt 3], [Value.vInt 4],
       [Value.vInt 5], [Value.vInt 6], [Value.vInt 7], [Value.vInt 8],
       [Value.vInt 9], [Value.vNull]] := by
  refine ⟨castRow_local, by decide, by decide, ?_, by decide⟩
  rw [infer_column_type_eq_nat]
  decide

/-- Witness for C6 at concrete rows agreeing in cell 0. -/
theorem claim_C6_cast_failure_per_value_null_witness :
    ([some "1", some "a"] : List (Option String))[0]? =
      ([some "1", some "b"] : List (Option String))[0]? ∧
    (castRow ["int", "string"] [some "1", some "a"])[0]? =
      (castRow ["int", "string"] [some "1", some "b"])[0]? :=
  ⟨by decide,
   claim_C6_cast_failure_per_value_null.1 ["int", "string"]
     [some "1", some "a"] [some "1", some "b"] 0 (by decide)⟩

/-- C7: duplicate removal is exact full-row equality over post-cast values:
the output has no duplicate rows, and a cast row appears in the output iff
it arises from some input row (so two rows collapse exactly when every
post-cast cell is equal); concretely, two identical rows collapse, rows
differing in one cell are both kept, and two rows whose cells both cast to
null collapse (null cells compare equal). -/
theorem claim_C7_dedup_exact_row_equality :
    (∀ (types : List String) (rows : List (List (Option String))),
        (cleanedRows types rows).Nodup ∧
        ∀ r, r ∈ cleanedRows types rows ↔ r ∈ rows.map (castRow types)) ∧
    cleanedRows ["string", "int"] [[some "a", some "1"], [some "a", some "1"]] =
      [[Value.vStr "a", Value.vInt 1]] ∧
    cleanedRows ["string", "int"] [[some "a", some "1"], [some "a", some "2"]] =
      [[Value.vStr "a", Value.vInt 1], [Value.vStr "a", Value.vInt 2]] ∧
    cleanedRows ["int"] [[some "x"], [some "y"]] = [[Value.vNull]] :=
  ⟨fun _ _ => ⟨List.nodup_dedup _, fun _ => List.mem_dedup⟩,
   by decide, by decide, by decide⟩

/-- C10: a value passing the integer check is counted for the integer and
float tallies and the date parse is never attempted on it (the date tally
is unchanged), even for a string like `"2021"` that the date parser would
accept; consequently a column whose values all pass the integer check is
never classified `"date"`. -/
theorem claim_C10_int_success_skips_date_parse :
    (∀ (v : String) (rest : List String), pyIntOk (pyStrip v) = true →
        (tallies (v :: rest)).2.2 = (tallies rest).2.2 ∧
        (tallies (v :: rest)).1 = (tallies rest).1 + 1 ∧
        (tallies (v :: rest)).2.1 = (tallies rest).2.1 + 1) ∧
    (pyIntOk "2021" = true ∧ dateutilParses "2021" = true) ∧
    (∀ values : List (Option String),
        (∀ v ∈ values, ∃ s, v = some s ∧ pyIntOk (pyStrip s) = true) →
        infer_column_type values ≠ "date") := by
  refine ⟨?_, ⟨by decide, by decide⟩, ?_⟩
  · intro v rest h
    have h1 : intTally v = true := by simp [intTally, h]
    have h2 : floatTally v = true := by simp [floatTally, h]
    have h3 : dateTally v = false := by simp [dateTally, h]
    rw [tallies_eq_countP, tallies_eq_countP]
    simp [List.countP_cons, h1, h2, h3]
  · intro values hall
    have hint : ∀ x ∈ nonNullValues values, pyIntOk (pyStrip x) = true := by
      intro x hx
      unfold nonNullValues at hx
      have hx2 : x ∈ values.filterMap id := (List.mem_filter.mp hx).1
      rw [List.mem_filterMap] at hx2
      obtain ⟨a, ha, hax⟩ := hx2
      obtain ⟨s, hs1, hs2⟩ := hall a ha
      rw [hs1] at hax
      cases hax
      exact hs2
    have hz : ((nonNullValues values).take SAMPLE_ROWS).countP dateTally = 0 := by
      rw [List.countP_eq_zero]
      intro x hx
      have hmem : x ∈ nonNullValues values := List.take_subset _ _ hx
      simp [dateTally, hint x hmem]
    cases he : (nonNullValues values).isEmpty with
    | true =>
      unfold infer_column_type
      simp only [he, if_true]
      decide
    | false =>
      unfold infer_column_type
      simp only [he, Bool.false_eq_true, if_false]
      rw [tallies_eq_countP]
      simp only [hz]
      split_ifs with h1 h2 h3
      · decide
      · decide
      · exfalso
        rcases h3 with ⟨hpos, hge⟩
        rw [Nat.cast_zero, zero_div] at hge
        have : ¬ (DATE_THRESHOLD ≤ (0 : ℚ)) := by
          unfold DATE_THRESHOLD
          norm_num
        exact this hge
      · decide

/-- Witness for C10 at `"2021"`. -/
theorem claim_C10_int_success_skips_date_parse_witness :
    pyIntOk (pyStrip "2021") = true ∧
    (tallies ["2021"]).2.2 = (tallies []).2.2 ∧
    infer_column_type [some "2021"] ≠ "date" :=
  ⟨by decide,
   (claim_C10_int_success_skips_date_parse.1 "2021" [] (by decide)).1,
   claim_C10_int_success_skips_date_parse.2.2 [some "2021"]
     (by
       intro v hv
       rw [List.mem_singleton] at hv
       exact ⟨"2021", hv, by decide⟩)⟩

lemma ascii_cases {P : Char → Prop}
    (hall : ∀ x ∈ (List.range 128).map Char.ofNat, P x) {c : Char}
    (h : c.toNat < 128) : P c := by
  have hm : c ∈ (List.range 128).map Char.ofNat :=
    List.mem_map.mpr ⟨c.toNat, List.mem_range.mpr h, Char.ofNat_toNat c⟩
  exact hall c hm

/-- The character-level facts about ASCII characters used by the sanitizer
invariants; established by enumerating the 128 ASCII characters. -/
lemma ascii_char_facts {c : Char} (h : c.toNat < 128) :
    (pyCharIsWord c = true →
      pyLowerChar c = [asciiLowerChar c] ∧ isIdentChar (asciiLowerChar c) = true) ∧
    (asciiLowerChar c = '_' → c = '_') ∧
    (isIdentChar c = true →
      pyCharIsWord c = true ∧ pyCharIsSpace c = false ∧ pyLowerChar c = [c]) :=
  ascii_cases
    (P := fun x =>
      (pyCharIsWord x = true →
        pyLowerChar x = [asciiLowerChar x] ∧ isIdentChar (asciiLowerChar x) = true) ∧
      (asciiLowerChar x = '_' → x = '_') ∧
      (isIdentChar x = true →
        pyCharIsWord x = true ∧ pyCharIsSpace x = false ∧ pyLowerChar x = [x]))
    (by decide) h

lemma isIdentChar_ascii {c : Char} (h : isIdentChar c = true) : c.toNat < 128 := by
  unfold isIdentChar at h
  simp only [Bool.or_eq_true, Bool.and_eq_true, decide_eq_true_eq] at h
  rcases h with (⟨_, h2⟩ | ⟨_, h2⟩) | h
  · omega
  · omega
  · rw [h]
    decide

lemma subRuns_cons (p : Char → Bool) (b : Bool) (a : Char) (t : List Char) :
    subRuns p b (a :: t) =
      if p a then a :: subRuns p false t
      else if b then subRuns p true t else '_' :: subRuns p true t := by
  cases b <;> rfl

/-- Every character emitted by `subRuns` is an underscore or an original
character satisfying `p`. -/
lemma mem_subRuns {p : Char → Bool} {l : List Char} :
    ∀ b, ∀ c ∈ subRuns p b l, c = '_' ∨ (c ∈ l ∧ p c = true) := by
  induction l with
  | nil => intro b c hc; simp [subRuns] at hc
  | cons a t ih =>
    intro b c hc
    rw [subRuns_cons] at hc
    by_cases hp : p a = true
    · rw [if_pos hp] at hc
      rcases List.mem_cons.mp hc with he | hmem
      · exact Or.inr ⟨he ▸ List.mem_cons_self a t, he ▸ hp⟩
      · rcases ih false c hmem with h1 | ⟨h2, h3⟩
        · exact Or.inl h1
        · exact Or.inr ⟨List.mem_cons_of_mem _ h2, h3⟩
    · rw [if_neg hp] at hc
      cases b with
      | true =>
        simp only [if_true] at hc
        rcases ih true c hc with h1 | ⟨h2, h3⟩
        · exact Or.inl h1
        · exact Or.inr ⟨List.mem_cons_of_mem _ h2, h3⟩
      | false =>
        simp only [if_false, Bool.false_eq_true] at hc
        rcases List.mem_cons.mp hc with he | hmem
        · exact Or.inl he
        · rcases ih true c hmem with h1 | ⟨h2, h3⟩
          · exact Or.inl h1
          · exact Or.inr ⟨List.mem_cons_of_mem _ h2, h3⟩

/-- The first character emitted by `subRuns` in replacing mode satisfies
`p` (a fresh underscore is only emitted right after a kept character). -/
lemma subRuns_true_head {p : Char → Bool} {l : List Char} :
    ∀ c, (subRuns p true l).head? = some c → p c = true := by
  induction l with
  | nil => intro c hc; simp [subRuns] at hc
  | cons a t ih =>
    intro c hc
    rw [subRuns_cons] at hc
    by_cases hp : p a = true
    · rw [if_pos hp] at hc
      simp only [List.head?_cons, Option.some.injEq] at hc
      exact hc ▸ hp
    · rw [if_neg hp, if_pos rfl] at hc
      exact ih c hc

lemma noDoubleUS_cons_cons (a b : Char) (r : List Char) :
    noDoubleUS (a :: b :: r) = (!(a = '_' && b = '_') && noDoubleUS (b :: r)) := rfl

lemma noDoubleUS_tail {a : Char} {l : List Char}
    (h : noDoubleUS (a :: l) = true) : noDoubleUS l = true := by
  cases l with
  | nil => rfl
  | cons b r =>
    rw [noDoubleUS_cons_cons, Bool.and_eq_true] at h
    exact h.2

lemma noDoubleUS_cons_of_ne {a : Char} {l : List Char} (ha : a ≠ '_')
    (h : noDoubleUS l = true) : noDoubleUS (a :: l) = true := by
  cases l with
  | nil => rfl
  | cons b r =>
    rw [noDoubleUS_cons_cons, Bool.and_eq_true]
    exact ⟨by simp [ha], h⟩

lemma noDoubleUS_cons_us {l : List Char} (hh : l.head? ≠ some '_')
    (h : noDoubleUS l = true) : noDoubleUS ('_' :: l) = true := by
  cases l with
  | nil => rfl
  | cons b r =>
    rw [noDoubleUS_cons_cons, Bool.and_eq_true]
    refine ⟨?_, h⟩
    have hb : b ≠ '_' := by
      intro he
      exact hh (by rw [List.head?_cons, he])
    simp [hb]

/-- The collapse pass of the sanitizer leaves no two adjacent
underscores. -/
lemma noDoubleUS_subRuns_collapse (l : List Char) :
    ∀ b, noDoubleUS (subRuns (fun c => c ≠ '_') b l) = true := by
  induction l with
  | nil => intro b; rfl
  | cons a t ih =>
    intro b
    rw [subRuns_cons]
    by_cases ha : a = '_'
    · have hpa : (fun c : Char => (c ≠ '_' : Bool)) a = false := by simp [ha]
      rw [if_neg (by simp [ha])]
      cases b with
      | true => simpa using ih true
      | false =>
        simp only [if_false, Bool.false_eq_true]
        apply noDoubleUS_cons_us
        · intro hh
          have := subRuns_true_head _ hh
          simp at this
        · exact ih true
    · rw [if_pos (by simpa using ha)]
      exact noDoubleUS_cons_of_ne ha (ih false)

lemma mem_dropWhile {p : Char → Bool} {l : List Char} {c : Char}
    (h : c ∈ l.dropWhile p) : c ∈ l := by
  induction l with
  | nil => simp at h
  | cons a t ih =>
    rw [List.dropWhile_cons] at h
    by_cases hp : p a = true
    · rw [if_pos hp] at h
      exact List.mem_cons_of_mem _ (ih h)
    · rw [if_neg hp] at h
      exact h

lemma mem_dropTrailing {p : Char → Bool} {l : List Char} {c : Char}
    (h : c ∈ dropTrailing p l) : c ∈ l := by
  induction l with
  | nil => simp [dropTrailing] at h
  | cons a t ih =>
    unfold dropTrailing at h
    cases hr : dropTrailing p t with
    | nil =>
      rw [hr] at h
      by_cases hp : p a = true
      · rw [if_pos hp] at h
        simp at h
      · rw [if_neg hp] at h
        rcases List.mem_cons.mp h with he | hmem
        · exact he ▸ List.mem_cons_self a t
        · simp at hmem
    | cons x xs =>
      rw [hr] at h
      rcases List.mem_cons.mp h with he | hmem
      · exact he ▸ List.mem_cons_self a t
      · exact List.mem_cons_of_mem _ (ih (hr ▸ hmem))

lemma head?_dropWhile_not_p {p : Char → Bool} {l : List Char} {c : Char}
    (h : (l.dropWhile p).head? = some c) : p c = false := by
  induction l with
  | nil => simp at h
  | cons a t ih =>
    rw [List.dropWhile_cons] at h
    by_cases hp : p a = true
    · rw [if_pos hp] at h
      exact ih h
    · rw [if_neg hp] at h
      rw [List.head?_cons, Option.some.injEq] at h
      rw [← h]
      simpa using hp

lemma dropTrailing_head? {p : Char → Bool} (l : List Char) :
    dropTrailing p l = [] ∨ (dropTrailing p l).head? = l.head? := by
  cases l with
  | nil => exact Or.inl rfl
  | cons a t =>
    unfold dropTrailing
    cases hr : dropTrailing p t with
    | nil =>
      by_cases hp : p a = true
      · rw [if_pos hp]
        exact Or.inl rfl
      · rw [if_neg hp]
        exact Or.inr rfl
    | cons x xs => exact Or.inr rfl

lemma getLast?_dropTrailing_not_p {p : Char → Bool} {l : List Char} {c : Char}
    (h : (dropTrailing p l).getLast? = some c) : p c = false := by
  induction l with
  | nil => simp [dropTrailing] at h
  | cons a t ih =>
    unfold dropTrailing at h
    cases hr : dropTrailing p t with
    | nil =>
      rw [hr] at h
      by_cases hp : p a = true
      · rw [if_pos hp] at h
        simp at h
      · rw [if_neg hp] at h
        simp only [List.getLast?_singleton, Option.some.injEq] at h
        rw [← h]
        simpa using hp
    | cons x xs =>
      rw [hr] at h
      rw [List.getLast?_cons_cons] at h
      exact ih (hr ▸ h)

lemma noDoubleUS_dropWhile {p : Char → Bool} {l : List Char}
    (h : noDoubleUS l = true) : noDoubleUS (l.dropWhile p) = true := by
  induction l with
  | nil => rfl
  | cons a t ih =>
    rw [List.dropWhile_cons]
    by_cases hp : p a = true
    · rw [if_pos hp]
      exact ih (noDoubleUS_tail h)
    · rw [if_neg hp]
      exact h

lemma noDoubleUS_dropTrailing {p : Char → Bool} {l : List Char}
    (h : noDoubleUS l = true) : noDoubleUS (dropTrailing p l) = true := by
  induction l with
  | nil => rfl
  | cons a t ih =>
    show noDoubleUS (match dropTrailing p t with
      | [] => if p a then [] else [a]
      | r => a :: r) = true
    cases hr : dropTrailing p t with
    | nil =>
      by_cases hp : p a = true
      · rw [if_pos hp]
        rfl
      · rw [if_neg hp]
        rfl
    | cons x xs =>
      have ht : noDoubleUS (x :: xs) = true := hr ▸ ih (noDoubleUS_tail h)
      cases t with
      | nil => simp [dropTrailing] at hr
      | cons b u =>
        have hhead : (dropTrailing p (b :: u)).head? = (b :: u).head? := by
          rcases dropTrailing_head? (p := p) (b :: u) with hnil | hh
          · rw [hnil] at hr
            exact absurd hr (by simp)
          · exact hh
        rw [hr] at hhead
        simp only [List.head?_cons, Option.some.injEq] at hhead
        rw [noDoubleUS_cons_cons, Bool.and_eq_true]
        refine ⟨?_, ht⟩
        rw [noDoubleUS_cons_cons, Bool.and_eq_true] at h
        rw [hhead]
        exact h.1

lemma pyLower_eq_map {l : List Char}
    (h : ∀ c ∈ l, pyLowerChar c = [asciiLowerChar c]) :
    pyLower l = l.map asciiLowerChar := by
  induction l with
  | nil => rfl
  | cons a t ih =>
    unfold pyLower at ih ⊢
    rw [List.flatMap_cons, h a (List.mem_cons_self a t), List.map_cons,
      ih (fun c hc => h c (List.mem_cons_of_mem a hc))]
    rfl

lemma pyLower_eq_self {l : List Char} (h : ∀ c ∈ l, pyLowerChar c = [c]) :
    pyLower l = l := by
  induction l with
  | nil => rfl
  | cons a t ih =>
    unfold pyLower at ih ⊢
    rw [List.flatMap_cons, h a (List.mem_cons_self a t),
      ih (fun c hc => h c (List.mem_cons_of_mem a hc))]
    rfl

lemma noDoubleUS_map {l : List Char}
    (hf : ∀ c ∈ l, asciiLowerChar c = '_' → c = '_')
    (h : noDoubleUS l = true) : noDoubleUS (l.map asciiLowerChar) = true := by
  induction l with
  | nil => rfl
  | cons a t ih =>
    cases t with
    | nil => rfl
    | cons b u =>
      rw [List.map_cons, List.map_cons]
      rw [noDoubleUS_cons_cons, Bool.and_eq_true] at h ⊢
      constructor
      · simp only [Bool.not_eq_true', Bool.and_eq_false_iff, decide_eq_false_iff_not]
        by_cases hae : asciiLowerChar a = '_'
        · have ha : a = '_' := hf a (List.mem_cons_self a _) hae
          have hb : b ≠ '_' := by
            have h1 := h.1
            simp only [Bool.not_eq_true', Bool.and_eq_false_iff,
              decide_eq_false_iff_not] at h1
            rcases h1 with h1 | h1
            · exact absurd ha h1
            · exact h1
          right
          intro hbe
          exact hb (hf b (List.mem_cons_of_mem a (List.mem_cons_self b u)) hbe)
        · exact Or.inl hae
      · exact ih (fun c hc he => hf c (List.mem_cons_of_mem a hc) he) h.2

/-- For ASCII input, the sanitizer always produces a clean identifier. -/
lemma sanitize_ascii_clean (s : String) (h : ∀ c ∈ s.data, c.toNat < 128) :
    isCleanIdent (sanitize_column_name s) = true := by
  have h0 : ∀ c ∈ pyStripList s.data, c.toNat < 128 := fun c hc =>
    h c (mem_dropWhile (mem_dropTrailing hc))
  have h1 : ∀ c ∈ subRuns pyCharIsWord false (pyStripList s.data),
      c.toNat < 128 ∧ pyCharIsWord c = true := by
    intro c hc
    rcases mem_subRuns false c hc with he | ⟨hmem, hw⟩
    · rw [he]
      exact ⟨by decide, by decide⟩
    · exact ⟨h0 c hmem, hw⟩
  have h2 : ∀ c ∈ subRuns (fun c => c ≠ '_') false
      (subRuns pyCharIsWord false (pyStripList s.data)),
      c.toNat < 128 ∧ pyCharIsWord c = true := by
    intro c hc
    rcases mem_subRuns false c hc with he | ⟨hmem, _⟩
    · rw [he]
      exact ⟨by decide, by decide⟩
    · exact h1 c hmem
  have hnd2 : noDoubleUS (subRuns (fun c => c ≠ '_') false
      (subRuns pyCharIsWord false (pyStripList s.data))) = true :=
    noDoubleUS_subRuns_collapse _ false
  have h3 : ∀ c ∈ stripUnderscores (subRuns (fun c => c ≠ '_') false
      (subRuns pyCharIsWord false (pyStripList s.data))),
      c.toNat < 128 ∧ pyCharIsWord c = true := fun c hc =>
    h2 c (mem_dropWhile (mem_dropTrailing hc))
  have hnd3 : noDoubleUS (stripUnderscores (subRuns (fun c => c ≠ '_') false
      (subRuns pyCharIsWord false (pyStripList s.data)))) = true :=
    noDoubleUS_dropTrailing (noDoubleUS_dropWhile hnd2)
  have hh3 : ∀ c, (stripUnderscores (subRuns (fun c => c ≠ '_') false
      (subRuns pyCharIsWord false (pyStripList s.data)))).head? = some c →
      c ≠ '_' := by
    intro c hc
    unfold stripUnderscores at hc
    rcases dropTrailing_head? (p := fun c => c = '_')
        ((subRuns (fun c => c ≠ '_') false
          (subRuns pyCharIsWord false (pyStripList s.data))).dropWhile
          (fun c => c = '_')) with hnil | hh
    · rw [hnil] at hc
      simp at hc
    · rw [hh] at hc
      have := head?_dropWhile_not_p hc
      simpa using this
  have hg3 : ∀ c, (stripUnderscores (subRuns (fun c => c ≠ '_') false
      (subRuns pyCharIsWord false (pyStripList s.data)))).getLast? = some c →
      c ≠ '_' := by
    intro c hc
    unfold stripUnderscores at hc
    have := getLast?_dropTrailing_not_p hc
    simpa using this
  have hmap : pyLower (stripUnderscores (subRuns (fun c => c ≠ '_') false
      (subRuns pyCharIsWord false (pyStripList s.data)))) =
      (stripUnderscores (subRuns (fun c => c ≠ '_') false
        (subRuns pyCharIsWord false (pyStripList s.data)))).map asciiLowerChar :=
    pyLower_eq_map (fun c hc =>
      ((ascii_char_facts (h3 c hc).1).1 (h3 c hc).2).1)
  have hs : sanitize_column_name s =
      (if (pyLower (stripUnderscores (subRuns (fun c => c ≠ '_') false
          (subRuns pyCharIsWord false (pyStripList s.data))))).isEmpty then "col"
       else ⟨pyLower (stripUnderscores (subRuns (fun c => c ≠ '_') false
          (subRuns pyCharIsWord false (pyStripList s.data))))⟩) := rfl
  rw [hs, hmap]
  cases hemp : ((stripUnderscores (subRuns (fun c => c ≠ '_') false
      (subRuns pyCharIsWord false (pyStripList s.data)))).map
        asciiLowerChar).isEmpty with
  | true =>
    rw [if_pos (rfl : (true : Bool) = true)]
    decide
  | false =>
    rw [if_neg (by simp)]
    unfold isCleanIdent
    simp only [Bool.and_eq_true]
    refine ⟨⟨⟨⟨?_, ?_⟩, ?_⟩, ?_⟩, ?_⟩
    · cases hstrip : stripUnderscores (subRuns (fun c => c ≠ '_') false
          (subRuns pyCharIsWord false (pyStripList s.data))) with
      | nil =>
        rw [hstrip] at hemp
        exact absurd hemp (by decide)
      | cons d r =>
        simp
    · rw [List.all_eq_true]
      intro c hc
      rcases List.mem_map.mp hc with ⟨d, hd, hde⟩
      rw [← hde]
      exact ((ascii_char_facts (h3 d hd).1).1 (h3 d hd).2).2
    · exact noDoubleUS_map
        (fun c hc he => (ascii_char_facts (h3 c hc).1).2.1 he) hnd3
    · cases hl : (stripUnderscores (subRuns (fun c => c ≠ '_') false
          (subRuns pyCharIsWord false (pyStripList s.data)))) with
      | nil => rfl
      | cons d r =>
        have hd3 : d ∈ stripUnderscores (subRuns (fun c => c ≠ '_') false
            (subRuns pyCharIsWord false (pyStripList s.data))) := by
          rw [hl]
          exact List.mem_cons_self d r
        have hdne : d ≠ '_' := hh3 d (by rw [hl]; rfl)
        have hfne : asciiLowerChar d ≠ '_' := fun he =>
          hdne ((ascii_char_facts (h3 d hd3).1).2.1 he)
        simp only [List.map_cons, List.head?_cons]
        simpa using hfne
    · rcases hgl : (stripUnderscores (subRuns (fun c => c ≠ '_') false
          (subRuns pyCharIsWord false (pyStripList s.data)))).getLast? with _ | d
      · have : (stripUnderscores (subRuns (fun c => c ≠ '_') false
            (subRuns pyCharIsWord false (pyStripList s.data)))) = [] :=
          List.getLast?_eq_none_iff.mp hgl
        rw [this]
        rfl
      · have hd3 : d ∈ stripUnderscores (subRuns (fun c => c ≠ '_') false
            (subRuns pyCharIsWord false (pyStripList s.data))) := by
          obtain ⟨hne, heq⟩ :=
            List.mem_getLast?_eq_getLast (Option.mem_def.mpr hgl)
          rw [heq]
          exact List.getLast_mem hne
        have hdne : d ≠ '_' := hg3 d hgl
        have hfne : asciiLowerChar d ≠ '_' := fun he =>
          hdne ((ascii_char_facts (h3 d hd3).1).2.1 he)
        rw [List.getLast?_map, hgl]
        simpa using hfne

lemma dropWhile_eq_self_all {p : Char → Bool} {l : List Char}
    (h : ∀ c ∈ l, p c = false) : l.dropWhile p = l := by
  cases l with
  | nil => rfl
  | cons a t =>
    rw [List.dropWhile_cons, if_neg (by simp [h a (List.mem_cons_self a t)])]

lemma dropTrailing_eq_self_getLast {p : Char → Bool} {l : List Char}
    (hp : ∀ c, l.getLast? = some c → p c = false) : dropTrailing p l = l := by
  induction l with
  | nil => rfl
  | cons a t ih =>
    cases t with
    | nil =>
      have ha := hp a rfl
      show (match dropTrailing p [] with
        | [] => if p a then [] else [a]
        | r => a :: r) = [a]
      rw [show dropTrailing p ([] : List Char) = [] from rfl]
      simp [ha]
    | cons b u =>
      have iht : dropTrailing p (b :: u) = b :: u :=
        ih (fun c hc => hp c (by rw [List.getLast?_cons_cons]; exact hc))
      show (match dropTrailing p (b :: u) with
        | [] => if p a then [] else [a]
        | r => a :: r) = a :: b :: u
      rw [iht]

lemma dropTrailing_eq_self_all {p : Char → Bool} {l : List Char}
    (h : ∀ c ∈ l, p c = false) : dropTrailing p l = l := by
  apply dropTrailing_eq_self_getLast
  intro c hc
  have hd3 : c ∈ l := by
    obtain ⟨hne, heq⟩ := List.mem_getLast?_eq_getLast (Option.mem_def.mpr hc)
    rw [heq]
    exact List.getLast_mem hne
  exact h c hd3

lemma dropWhile_us_eq_self {l : List Char} (hh : l.head? ≠ some '_') :
    l.dropWhile (fun c => c = '_') = l := by
  cases l with
  | nil => rfl
  | cons a t =>
    have ha : a ≠ '_' := fun he => hh (by rw [List.head?_cons, he])
    rw [List.dropWhile_cons, if_neg (by simpa using ha)]

lemma subRuns_id_of_all {p : Char → Bool} {l : List Char}
    (h : ∀ c ∈ l, p c = true) : ∀ b, subRuns p b l = l := by
  induction l with
  | nil => intro b; rfl
  | cons a t ih =>
    intro b
    rw [subRuns_cons, if_pos (h a (List.mem_cons_self a t)),
      ih (fun c hc => h c (List.mem_cons_of_mem a hc)) false]

lemma head_ne_us_of_noDouble_us {t : List Char}
    (h : noDoubleUS ('_' :: t) = true) : t.head? ≠ some '_' := by
  cases t with
  | nil => simp
  | cons b u =>
    rw [noDoubleUS_cons_cons, Bool.and_eq_true] at h
    have hb : b ≠ '_' := by
      have h1 := h.1
      simp at h1
      exact h1
    simp [hb]

/-- The collapse pass is the identity on a list with no adjacent
underscores (in replacing mode, provided the list does not start with an
underscore). -/
lemma subRuns_collapse_id {l : List Char} (h : noDoubleUS l = true) :
    subRuns (fun c => c ≠ '_') false l = l ∧
      (l.head? ≠ some '_' → subRuns (fun c => c ≠ '_') true l = l) := by
  induction l with
  | nil => exact ⟨rfl, fun _ => rfl⟩
  | cons a t ih =>
    have iht := ih (noDoubleUS_tail h)
    constructor
    · rw [subRuns_cons]
      by_cases ha : a = '_'
      · rw [if_neg (by simp [ha])]
        simp only [Bool.false_eq_true, if_false]
        have hth : t.head? ≠ some '_' := head_ne_us_of_noDouble_us (ha ▸ h)
        rw [iht.2 hth, ha]
      · rw [if_pos (by simpa using ha), iht.1]
    · intro hh
      have ha : a ≠ '_' := fun he => hh (by rw [List.head?_cons, he])
      rw [subRuns_cons, if_pos (by simpa using ha), iht.1]

/-- The sanitizer is the identity on a clean identifier. -/
lemma sanitize_fixpoint {s : String} (h : isCleanIdent s = true) :
    sanitize_column_name s = s := by
  unfold isCleanIdent at h
  simp only [Bool.and_eq_true] at h
  obtain ⟨⟨⟨⟨hne, hall⟩, hnd⟩, hhead⟩, hlast⟩ := h
  rw [List.all_eq_true] at hall
  have hf : ∀ c ∈ s.data,
      pyCharIsWord c = true ∧ pyCharIsSpace c = false ∧ pyLowerChar c = [c] :=
    fun c hc => (ascii_char_facts (isIdentChar_ascii (hall c hc))).2.2 (hall c hc)
  have hhead' : s.data.head? ≠ some '_' := by
    simp only [Bool.not_eq_true', beq_eq_false_iff_ne, ne_eq] at hhead
    exact hhead
  have hlast' : ∀ c, s.data.getLast? = some c → (fun c => (c = '_' : Bool)) c = false := by
    intro c hc
    simp only [Bool.not_eq_true', beq_eq_false_iff_ne, ne_eq] at hlast
    have : c ≠ '_' := by
      intro he
      exact hlast (he ▸ hc)
    simpa using this
  have h0 : pyStripList s.data = s.data := by
    unfold pyStripList
    rw [dropWhile_eq_self_all (fun c hc => (hf c hc).2.1),
      dropTrailing_eq_self_all (fun c hc => (hf c hc).2.1)]
  have h1 : subRuns pyCharIsWord false s.data = s.data :=
    subRuns_id_of_all (fun c hc => (hf c hc).1) false
  have h2 : subRuns (fun c => c ≠ '_') false s.data = s.data :=
    (subRuns_collapse_id hnd).1
  have h3 : stripUnderscores s.data = s.data := by
    unfold stripUnderscores
    rw [dropWhile_us_eq_self hhead', dropTrailing_eq_self_getLast hlast']
  have h4 : pyLower s.data = s.data :=
    pyLower_eq_self (fun c hc => (hf c hc).2.2)
  have hs : sanitize_column_name s =
      (if (pyLower (stripUnderscores (subRuns (fun c => c ≠ '_') false
          (subRuns pyCharIsWord false (pyStripList s.data))))).isEmpty then "col"
       else ⟨pyLower (stripUnderscores (subRuns (fun c => c ≠ '_') false
          (subRuns pyCharIsWord false (pyStripList s.data))))⟩) := rfl
  rw [hs, h0, h1, h2, h3, h4]
  rw [if_neg (by simpa using hne)]

/-- C4 counterexample: Python's `re` treats `é` as a word character
(`\w` is Unicode-aware) and `str.lower` leaves it unchanged, so
`sanitize("é") = "é"`, which does not match `^[a-z0-9_]+$`. -/
theorem claim_C4_counterexample_nonascii :
    sanitize_column_name "é" = "é" ∧
    ((sanitize_column_name "é").data.all isIdentChar) = false := by
  constructor
  · decide
  · decide

/-- C4 amended: for every *ASCII* input string, the sanitizer output is
non-empty, matches `^[a-z0-9_]+$`, and has no leading, trailing or
repeated underscores (`isCleanIdent`).  For non-ASCII input the result can
contain characters outside `[a-z0-9_]` (see the counterexample). -/
theorem claim_C4_sanitize_ascii_total :
    ∀ s : String, (∀ c ∈ s.data, c.toNat < 128) →
      isCleanIdent (sanitize_column_name s) = true :=
  sanitize_ascii_clean

/-- Witness for C4 at a concrete ASCII input. -/
theorem claim_C4_sanitize_ascii_total_witness :
    (∀ c ∈ ("  First--Name!" : String).data, c.toNat < 128) ∧
    isCleanIdent (sanitize_column_name "  First--Name!") = true :=
  ⟨by decide, claim_C4_sanitize_ascii_total "  First--Name!" (by decide)⟩

/-- C5 counterexample: `"İ".lower()` is the two-character string `i̇`
(`i` + combining dot above, U+0307), and U+0307 is not a word character,
so a second sanitizer pass replaces it: `sanitize("İ") = "i̇"` but
`sanitize(sanitize("İ")) = "i"` — sanitization is not idempotent. -/
theorem claim_C5_counterexample_turkish_dotted_i :
    sanitize_column_name (sanitize_column_name "İ") ≠ sanitize_column_name "İ" := by
  decide

/-- C5 amended: for every *ASCII* input string, the sanitizer is
idempotent: `sanitize(sanitize(s)) = sanitize(s)`.  (The only failures are
non-ASCII inputs whose lower-cased word characters leave the word-character
class, as in the counterexample.) -/
theorem claim_C5_sanitize_idempotent_ascii :
    ∀ s : String, (∀ c ∈ s.data, c.toNat < 128) →
      sanitize_column_name (sanitize_column_name s) = sanitize_column_name s :=
  fun s h => sanitize_fixpoint (sanitize_ascii_clean s h)

/-- Witness for C5 at a concrete ASCII input. -/
theorem claim_C5_sanitize_idempotent_ascii_witness :
    (∀ c ∈ ("Join-Date" : String).data, c.toNat < 128) ∧
    sanitize_column_name (sanitize_column_name "Join-Date") =
      sanitize_column_name "Join-Date" :=
  ⟨by decide, claim_C5_sanitize_idempotent_ascii "Join-Date" (by decide)⟩
